import Mathlib

/-!
Verification of the caption deduplication and segmentation pipeline of
`web_transcriptor.py`: the Overlap Merger (`merge_captions_global`) and the
Segment Refiner (`refine_segments`).

Text is modelled as a list of characters (`Text := List Char`), so that
Python's character-level `in` substring test, `str.strip()` and `str.split()`
are embedded faithfully.  Timestamps are modelled as natural numbers on a
single timeline (the source only copies them around and never inspects them).
-/

/-- Text is a list of characters.  Python string operations (`strip`,
`split`, `" ".join`, substring `in`) are embedded as functions on it. -/
abbrev Text := List Char

/-- Whitespace test used by Python's `str.strip()` / `str.split()`. -/
def isWs (c : Char) : Bool := c.isWhitespace

/-- `str.strip()`: remove leading and trailing whitespace. -/
def strip (s : Text) : Text :=
  ((s.dropWhile isWs).reverse.dropWhile isWs).reverse

/-- Flush the (reversed) word accumulator of the splitter. -/
def flushAcc (acc : List Char) : List Text :=
  if acc.isEmpty then [] else [acc.reverse]

/-- Worker for `splitWords`; `acc` holds the current word reversed. -/
def splitWordsAux : Text → List Char → List Text
  | [], acc => flushAcc acc
  | c :: cs, acc =>
    if isWs c then flushAcc acc ++ splitWordsAux cs []
    else splitWordsAux cs (c :: acc)

/-- `str.split()` with no separator: whitespace-delimited words, runs of
whitespace collapsed, no empty words. -/
def splitWords (s : Text) : List Text := splitWordsAux s []

/-- `" ".join(words)`: words joined by a single space. -/
def joinWords (ws : List Text) : Text := List.intercalate [' '] ws

/-- `p` is an initial run of `s` (helper for the substring test). -/
def prefOf : Text → Text → Bool
  | [], _ => true
  | _ :: _, [] => false
  | a :: as, b :: bs => a == b && prefOf as bs

/-- Python's substring containment `p in s`: `p` occurs contiguously
(character-level) somewhere in `s`. -/
def subTextOf (p : Text) : Text → Bool
  | [] => p.isEmpty
  | c :: rest => prefOf p (c :: rest) || subTextOf p rest

/-- A timed caption record `(start, end, text)` as read from the subtitle
file (`caption.start`, `caption.end`, `caption.text` in the source). -/
structure Caption where
  start : Nat
  endT : Nat
  text : Text
deriving DecidableEq

/-- A merged segment tuple `(start, end, text)` as produced by
`merge_captions_global` and consumed by `refine_segments`. -/
structure Segment where
  start : Nat
  endT : Nat
  text : Text
deriving DecidableEq

/-- The overlap search loop of `merge_captions_global` (source lines 70-77):
`for i in range(len(curr_words), min_overlap_words - 1, -1)`, returning the
first (largest) `i` whose space-joined prefix of `ws` occurs as a substring
of `t`, and `0` when no length in `[k, fuel]` matches.  The fuel argument is
the current trial length `i`; the top-level call passes `ws.length`. -/
def findOverlapFrom (ws : List Text) (t : Text) (k : Nat) : Nat → Nat
  | 0 => 0
  | i + 1 =>
    if i + 1 < k then 0
    else if subTextOf (joinWords (ws.take (i + 1))) t then i + 1
    else findOverlapFrom ws t k i

/-- Lines 79-82 of the source: the text of the current segment after an
overlap of `ov` words was elided (`non_overlap` empty leaves the text
unchanged, otherwise it is appended after a single space). -/
def extendedText (curText : Text) (ws : List Text) (ov : Nat) : Text :=
  let nonOverlap := joinWords (ws.drop ov)
  if nonOverlap.isEmpty then curText else curText ++ ' ' :: nonOverlap

/-- One iteration of the `for caption in captions[1:]` loop of
`merge_captions_global` (source lines 65-88).  The state is the running
current segment together with the already-emitted segments. -/
def mergeStep (k : Nat) (st : Segment × List Segment) (cap : Caption) :
    Segment × List Segment :=
  let currText := strip cap.text
  if currText.isEmpty then st
  else
    let ws := splitWords currText
    let ov := findOverlapFrom ws st.1.text k ws.length
    if k ≤ ov then
      (⟨st.1.start, cap.endT, extendedText st.1.text ws ov⟩, st.2)
    else
      (⟨cap.start, cap.endT, currText⟩, st.2 ++ [st.1])

/-- `merge_captions_global(captions, min_overlap_words)` (source lines
52-91): seed the current segment from the first caption (regardless of
emptiness), fold the loop body over the remaining captions, and emit the
final current segment.  The source's default for `min_overlap_words` is 3. -/
def merge_captions_global (captions : List Caption) (min_overlap_words : Nat) :
    List Segment :=
  match captions with
  | [] => []
  | c :: rest =>
    let st := rest.foldl (mergeStep min_overlap_words)
      (⟨c.start, c.endT, strip c.text⟩, [])
    st.2 ++ [st.1]

/-- One iteration of the loop of `refine_segments` (source lines 98-104):
if the output list is non-empty and the current segment is short, pop the
last emitted segment and re-emit the fused segment (note the final
`.strip()` on the fused text in line 102). -/
def refineStep (min_words : Nat) (refined : List Segment) (seg : Segment) :
    List Segment :=
  match refined.getLast? with
  | some prev =>
    if (splitWords seg.text).length < min_words then
      refined.dropLast ++
        [⟨prev.start, seg.endT, strip (prev.text ++ ' ' :: seg.text)⟩]
    else refined ++ [seg]
  | none => refined ++ [seg]

/-- `refine_segments(segments, min_words)` (source lines 93-105).  The
source's default for `min_words` is 3. -/
def refine_segments (segments : List Segment) (min_words : Nat) :
    List Segment :=
  segments.foldl (refineStep min_words) []

/-! Recursive presentations of the two folds, used for the proofs.  They are
related to the source embeddings by the `foldl` equivalence lemmas below. -/

/-- Tail of the Merger loop, presented recursively: `mgo k cur cs` is the
list of segments still to be produced given running segment `cur` and
remaining captions `cs`.  Branch for branch it is the body of `mergeStep`. -/
def mgo (k : Nat) (cur : Segment) : List Caption → List Segment
  | [] => [cur]
  | c :: cs =>
    let currText := strip c.text
    if currText.isEmpty then mgo k cur cs
    else
      let ws := splitWords currText
      let ov := findOverlapFrom ws cur.text k ws.length
      if k ≤ ov then mgo k ⟨cur.start, c.endT, extendedText cur.text ws ov⟩ cs
      else cur :: mgo k ⟨c.start, c.endT, currText⟩ cs

/-- The `foldl` of `mergeStep` agrees with the recursive `mgo`. -/
theorem foldl_mergeStep_mgo (k : Nat) (cs : List Caption) :
    ∀ (cur : Segment) (acc : List Segment),
      (cs.foldl (mergeStep k) (cur, acc)).2 ++
        [(cs.foldl (mergeStep k) (cur, acc)).1] = acc ++ mgo k cur cs := by
  induction cs with
  | nil => intro cur acc; simp [mgo]
  | cons c cs ih =>
    intro cur acc
    simp only [List.foldl_cons, mgo, mergeStep]
    by_cases h : (strip c.text).isEmpty
    · simp [h, ih cur acc]
    · by_cases h2 : k ≤ findOverlapFrom (splitWords (strip c.text)) cur.text k
        (splitWords (strip c.text)).length
      · simp [h, h2, ih]
      · simp [h, h2, ih]

/-- The fused segment of `refine_segments` (source lines 100-102): keep the
predecessor's start, take the short segment's end, join the texts with one
space and strip the result. -/
def fuseSeg (prev seg : Segment) : Segment :=
  ⟨prev.start, seg.endT, strip (prev.text ++ ' ' :: seg.text)⟩

/-- Tail of the Refiner loop, presented recursively: `cur` is the segment on
top of the output stack (the fusion target), `l` the segments still to be
processed. -/
def rgo (m : Nat) (cur : Segment) : List Segment → List Segment
  | [] => [cur]
  | x :: xs =>
    if (splitWords x.text).length < m then rgo m (fuseSeg cur x) xs
    else cur :: rgo m x xs

/-- The `foldl` of `refineStep` agrees with the recursive `rgo`. -/
theorem foldl_refineStep_rgo (m : Nat) (l : List Segment) :
    ∀ (cur : Segment) (acc : List Segment),
      l.foldl (refineStep m) (acc ++ [cur]) = acc ++ rgo m cur l := by
  induction l with
  | nil => intro cur acc; simp [rgo]
  | cons x xs ih =>
    intro cur acc
    simp only [List.foldl_cons, rgo, refineStep, List.getLast?_concat,
      List.dropLast_concat]
    by_cases h : (splitWords x.text).length < m
    · simp only [if_pos h]
      exact ih (fuseSeg cur x) acc
    · simp only [if_neg h]
      rw [ih x (acc ++ [cur])]
      simp

/-- `refine_segments` on a non-empty list is `rgo` seeded with the first
segment (the first segment is pushed unfused because the output is empty). -/
theorem refine_segments_cons (m : Nat) (s : Segment) (rest : List Segment) :
    refine_segments (s :: rest) m = rgo m s rest := by
  have h0 : refineStep m [] s = [] ++ [s] := by simp [refineStep]
  calc refine_segments (s :: rest) m
      = rest.foldl (refineStep m) (refineStep m [] s) := rfl
    _ = rest.foldl (refineStep m) ([] ++ [s]) := by rw [h0]
    _ = [] ++ rgo m s rest := foldl_refineStep_rgo m rest s []
    _ = rgo m s rest := by simp

/-- `merge_captions_global` on a non-empty list is `mgo` seeded with the
first caption. -/
theorem merge_captions_global_cons (k : Nat) (c : Caption)
    (rest : List Caption) :
    merge_captions_global (c :: rest) k =
      mgo k ⟨c.start, c.endT, strip c.text⟩ rest := by
  have := foldl_mergeStep_mgo k rest ⟨c.start, c.endT, strip c.text⟩ []
  simpa [merge_captions_global] using this

/-! Lemmas about `splitWords`: splitting is insensitive to a separating
space, to leading/trailing whitespace, and hence to `strip`. -/

/-- Splitting distributes over a single separating space (aux form). -/
theorem splitWordsAux_append_space (t : Text) :
    ∀ (s : Text) (acc : List Char),
      splitWordsAux (s ++ ' ' :: t) acc =
        splitWordsAux s acc ++ splitWordsAux t [] := by
  intro s
  induction s with
  | nil =>
    intro acc
    simp [splitWordsAux, isWs]
  | cons c cs ih =>
    intro acc
    by_cases h : isWs c
    · simp [splitWordsAux, h, ih]
    · simp [splitWordsAux, h, ih]

/-- Splitting distributes over a single separating space. -/
theorem splitWords_append_space (s t : Text) :
    splitWords (s ++ ' ' :: t) = splitWords s ++ splitWords t :=
  splitWordsAux_append_space t s []

/-- On an all-whitespace text the splitter only flushes its accumulator. -/
theorem splitWordsAux_all_ws :
    ∀ (s : Text), (∀ c ∈ s, isWs c = true) →
      ∀ acc, splitWordsAux s acc = flushAcc acc := by
  intro s
  induction s with
  | nil => intro _ acc; rfl
  | cons c cs ih =>
    intro h acc
    have hc : isWs c = true := h c (List.mem_cons_self c cs)
    have hcs : ∀ x ∈ cs, isWs x = true := fun x hx => h x (List.mem_cons_of_mem c hx)
    simp [splitWordsAux, hc, ih hcs, flushAcc]

/-- An all-whitespace suffix does not change the split. -/
theorem splitWordsAux_append_ws (t : Text) (ht : ∀ c ∈ t, isWs c = true) :
    ∀ (s : Text) (acc : List Char),
      splitWordsAux (s ++ t) acc = splitWordsAux s acc := by
  intro s
  induction s with
  | nil =>
    intro acc
    simp only [List.nil_append]
    rw [splitWordsAux_all_ws t ht acc]
    rfl
  | cons c cs ih =>
    intro acc
    by_cases h : isWs c
    · simp [splitWordsAux, h, ih]
    · simp [splitWordsAux, h, ih]

/-- Leading whitespace does not change the split. -/
theorem splitWords_dropWhile_ws :
    ∀ s : Text, splitWords (s.dropWhile isWs) = splitWords s := by
  intro s
  induction s with
  | nil => rfl
  | cons c cs ih =>
    by_cases h : isWs c
    · have hd : List.dropWhile isWs (c :: cs) = List.dropWhile isWs cs := by
        simp [List.dropWhile_cons, h]
      rw [hd, ih]
      simp [splitWords, splitWordsAux, h, flushAcc]
    · rw [List.dropWhile_cons]
      simp [h]

/-- `strip` does not change the split (Python: `s.strip().split() == s.split()`). -/
theorem splitWords_strip (s : Text) : splitWords (strip s) = splitWords s := by
  have hu : splitWords (s.dropWhile isWs) = splitWords s := splitWords_dropWhile_ws s
  have hdecomp :
      ((s.dropWhile isWs).reverse.dropWhile isWs).reverse ++
        ((s.dropWhile isWs).reverse.takeWhile isWs).reverse = s.dropWhile isWs := by
    rw [← List.reverse_append, List.takeWhile_append_dropWhile, List.reverse_reverse]
  have hws : ∀ c ∈ ((s.dropWhile isWs).reverse.takeWhile isWs).reverse,
      isWs c = true := by
    intro c hc
    exact List.mem_takeWhile_imp (List.mem_reverse.mp hc)
  have h2 := splitWordsAux_append_ws _ hws
    (((s.dropWhile isWs).reverse.dropWhile isWs).reverse) []
  calc splitWords (strip s)
      = splitWords ((((s.dropWhile isWs).reverse.dropWhile isWs).reverse) ++
          (((s.dropWhile isWs).reverse.takeWhile isWs).reverse)) := h2.symm
    _ = splitWords (s.dropWhile isWs) := by rw [hdecomp]
    _ = splitWords s := hu

/-- The word list of a fused segment is the word lists of its parts. -/
theorem splitWords_fuseSeg (a b : Segment) :
    splitWords (fuseSeg a b).text = splitWords a.text ++ splitWords b.text := by
  show splitWords (strip (a.text ++ ' ' :: b.text)) = _
  rw [splitWords_strip, splitWords_append_space]

/-! Named example texts used in concrete theorems. -/

def tQuickFox : Text := "the quick brown fox".data
def tBrownJumps : Text := "brown fox jumps over".data
def tQuickFoxJumps : Text := "the quick brown fox jumps over".data
def tHi : Text := "hi".data
def tYo : Text := "yo".data
def tHiYo : Text := "hi yo".data
def tThereFriend : Text := "there friend".data
def tHiThereFriend : Text := "hi there friend".data
def tSpHi : Text := " hi".data
def tX : Text := "x".data
def tHiX : Text := "hi x".data
def tSpHiX : Text := " hi x".data
def tAbc : Text := "a b c".data
def tEmpty : Text := "".data

/-- Claim C1 (counterexample): with `k = 3`, captions
`["the quick brown fox", "brown fox jumps over"]` do NOT merge into a single
segment with text `"the quick brown fox jumps over"`: the output has two
segments whatever timestamps a single segment might carry. -/
theorem c1_counterexample :
    ¬ ∃ st en : Nat,
      merge_captions_global
        [⟨0, 1, tQuickFox⟩, ⟨1, 2, tBrownJumps⟩] 3 =
      [⟨st, en, tQuickFoxJumps⟩] := by
  rintro ⟨st, en, h⟩
  have h2 : (merge_captions_global
      [⟨0, 1, tQuickFox⟩, ⟨1, 2, tBrownJumps⟩] 3).length = 2 := by decide
  rw [h] at h2
  simp at h2

/-- Claim C1 (amended): with `k = 3`, captions `["the quick brown fox",
"brown fox jumps over"]` produce two segments carrying the original caption
texts: no prefix of length ≥ 3 of the second caption occurs as a substring
of the first caption's text, so no overlap is elided. -/
theorem c1_merger_example :
    merge_captions_global [⟨0, 1, tQuickFox⟩, ⟨1, 2, tBrownJumps⟩] 3 =
      [⟨0, 1, tQuickFox⟩, ⟨1, 2, tBrownJumps⟩] := by decide

/-- A fold over a filtered list equals the fold over the whole list when the
step function fixes every filtered-out element. -/
theorem foldl_filter_id {α β : Type} (p : α → Bool) (f : β → α → β)
    (hf : ∀ st a, p a = false → f st a = st) :
    ∀ (l : List α) (init : β), (l.filter p).foldl f init = l.foldl f init := by
  intro l
  induction l with
  | nil => intro init; rfl
  | cons a l ih =>
    intro init
    by_cases h : p a
    · rw [List.filter_cons_of_pos h]
      simp only [List.foldl_cons]
      exact ih (f init a)
    · rw [List.filter_cons_of_neg (by simpa using h)]
      rw [List.foldl_cons, hf init a (by simpa using h)]
      exact ih init

/-- A caption whose stripped text is empty is a no-op for the Merger loop. -/
theorem mergeStep_empty (k : Nat) (st : Segment × List Segment)
    (cap : Caption) (h : (strip cap.text).isEmpty = true) :
    mergeStep k st cap = st := by
  simp [mergeStep, h]

/-- Claim C2 (counterexample): dropping ALL empty-text captions can change
the output: a leading empty caption seeds (and here alone emits) a segment. -/
theorem c2_counterexample :
    merge_captions_global
      (([⟨0, 1, tEmpty⟩] : List Caption).filter
        (fun c => !(strip c.text).isEmpty)) 3 ≠
    merge_captions_global [⟨0, 1, tEmpty⟩] 3 := by decide

/-- Claim C2 (amended): a caption AFTER THE FIRST whose stripped text is
empty never starts, extends, or ends a segment: dropping all empty-text
captions from the captions after the first leaves the Merger output
unchanged (the first caption always seeds the initial segment, even when
its text is empty). -/
theorem c2_empty_captions_noop (c0 : Caption) (rest : List Caption) (k : Nat) :
    merge_captions_global
      (c0 :: rest.filter (fun c => !(strip c.text).isEmpty)) k =
    merge_captions_global (c0 :: rest) k := by
  have hf : ∀ (st : Segment × List Segment) (a : Caption),
      (!(strip a.text).isEmpty) = false → mergeStep k st a = st := by
    intro st a ha
    exact mergeStep_empty k st a (by simpa using ha)
  simp only [merge_captions_global]
  rw [foldl_filter_id _ _ hf]

/-- `mgo` produces at most one segment more than there are captions left. -/
theorem mgo_length (k : Nat) : ∀ (cs : List Caption) (cur : Segment),
    (mgo k cur cs).length ≤ cs.length + 1 := by
  intro cs
  induction cs with
  | nil => intro cur; simp [mgo]
  | cons c cs ih =>
    intro cur
    simp only [mgo]
    split
    · exact le_trans (ih cur) (by simp)
    · split
      · exact le_trans (ih _) (by simp)
      · simpa using Nat.succ_le_succ (ih _)

/-- Claim C7: the Merger emits at most as many segments as there are input
captions, and the empty input yields the empty output. -/
theorem c7_merger_count (captions : List Caption) (k : Nat) :
    (merge_captions_global captions k).length ≤ captions.length ∧
    merge_captions_global ([] : List Caption) k = [] := by
  refine ⟨?_, rfl⟩
  cases captions with
  | nil => simp [merge_captions_global]
  | cons c rest =>
    rw [merge_captions_global_cons]
    simpa using mgo_length k rest _

/-- Claim C8 (counterexample): the fused text is stripped, so it is not
always the predecessor's text + one space + the short segment's text: with
predecessor text `" hi"` the fusion yields `"hi x"`, not `" hi x"`. -/
theorem c8_counterexample :
    refine_segments [⟨0, 1, tSpHi⟩, ⟨1, 2, tX⟩] 3 = [⟨0, 2, tHiX⟩] ∧
    refine_segments [⟨0, 1, tSpHi⟩, ⟨1, 2, tX⟩] 3 ≠ [⟨0, 2, tSpHiX⟩] := by
  decide

/-- Claim C8 (amended): fusing a short segment into its predecessor keeps
the predecessor's start time, takes the short segment's end time, and its
text is the predecessor's text, a single space, and the short segment's
text, with leading and trailing whitespace then stripped; in particular
`refine_segments [(0,1,"hi"), (1,2,"there friend")] 3 =
[(0,2,"hi there friend")]`. -/
theorem c8_fusion (a b : Segment) (m : Nat)
    (h : (splitWords b.text).length < m) :
    refine_segments [a, b] m =
      [⟨a.start, b.endT, strip (a.text ++ ' ' :: b.text)⟩] ∧
    refine_segments [⟨0, 1, tHi⟩, ⟨1, 2, tThereFriend⟩] 3 =
      [⟨0, 2, tHiThereFriend⟩] := by
  refine ⟨?_, by decide⟩
  rw [refine_segments_cons]
  simp [rgo, h, fuseSeg]

/-- Witness for `c8_fusion` at a concrete short second segment. -/
theorem c8_fusion_witness :
    (splitWords tX).length < 3 ∧
    refine_segments [⟨5, 6, tAbc⟩, ⟨6, 7, tX⟩] 3 =
      [⟨5, 7, strip (tAbc ++ ' ' :: tX)⟩] :=
  ⟨by decide, (c8_fusion ⟨5, 6, tAbc⟩ ⟨6, 7, tX⟩ 3 (by decide)).1⟩

/-- Structure of a Refiner run: the output starts with a segment that keeps
the fusion target's start time and begins with its words, and every later
output segment has at least `m` words. -/
theorem rgo_spec (m : Nat) : ∀ (l : List Segment) (cur : Segment),
    ∃ c rest, rgo m cur l = c :: rest ∧ c.start = cur.start ∧
      (∃ ext, splitWords c.text = splitWords cur.text ++ ext) ∧
      ∀ s ∈ rest, m ≤ (splitWords s.text).length := by
  intro l
  induction l with
  | nil =>
    intro cur
    exact ⟨cur, [], rfl, rfl, ⟨[], by simp⟩, by simp⟩
  | cons x xs ih =>
    intro cur
    by_cases h : (splitWords x.text).length < m
    · obtain ⟨c, rest, h1, h2, ⟨ext, h3⟩, h4⟩ := ih (fuseSeg cur x)
      refine ⟨c, rest, ?_, ?_, ⟨splitWords x.text ++ ext, ?_⟩, h4⟩
      · rw [show rgo m cur (x :: xs) = rgo m (fuseSeg cur x) xs from by
          simp [rgo, h]]
        exact h1
      · rw [h2]; rfl
      · rw [h3, splitWords_fuseSeg]; simp
    · obtain ⟨c, rest, h1, h2, ⟨ext, h3⟩, h4⟩ := ih x
      refine ⟨cur, rgo m x xs, ?_, rfl, ⟨[], by simp⟩, ?_⟩
      · simp [rgo, h]
      · intro s hs
        rw [h1] at hs
        rcases List.mem_cons.mp hs with h5 | h5
        · have hlen : (splitWords c.text).length =
              (splitWords x.text).length + ext.length := by
            rw [h3]; simp
          rw [h5]
          omega
        · exact h4 s h5

/-- Claim C4 (counterexample): a first segment with fewer than `m` words is
NOT always emitted unchanged: a following short segment is fused into it,
changing its end time and text. -/
theorem c4_counterexample :
    (splitWords tHi).length < 3 ∧
    refine_segments [⟨0, 1, tHi⟩, ⟨1, 2, tYo⟩] 3 = [⟨0, 2, tHiYo⟩] ∧
    (⟨0, 2, tHiYo⟩ : Segment) ≠ ⟨0, 1, tHi⟩ := by decide

/-- Claim C4 (amended): every segment in the Refiner's output except
possibly the first has at least `m` words; a first input segment is never
fused backward: the first output segment keeps its start time and its word
list begins with the first input segment's word list (though later short
segments may be fused into it, extending its end time and text). -/
theorem c4_refiner (segs : List Segment) (m : Nat) :
    (∀ s ∈ (refine_segments segs m).tail, m ≤ (splitWords s.text).length) ∧
    (∀ s0 rest, segs = s0 :: rest →
      ∃ c rest2, refine_segments segs m = c :: rest2 ∧ c.start = s0.start ∧
        ∃ ext, splitWords c.text = splitWords s0.text ++ ext) := by
  constructor
  · cases segs with
    | nil => simp [refine_segments]
    | cons s rest =>
      rw [refine_segments_cons]
      obtain ⟨c, r2, h1, _, _, h4⟩ := rgo_spec m rest s
      rw [h1]
      simpa using h4
  · intro s0 rest hseg
    subst hseg
    rw [refine_segments_cons]
    obtain ⟨c, r2, h1, h2, h3, _⟩ := rgo_spec m rest s0
    exact ⟨c, r2, h1, h2, h3⟩

/-- Witness for `c4_refiner` on a concrete two-segment input. -/
theorem c4_refiner_witness :
    (∀ s ∈ (refine_segments [⟨0, 1, tHi⟩, ⟨1, 2, tYo⟩] 3).tail,
      3 ≤ (splitWords s.text).length) ∧
    ∃ c rest2,
      refine_segments [⟨0, 1, tHi⟩, ⟨1, 2, tYo⟩] 3 = c :: rest2 ∧
      c.start = (⟨0, 1, tHi⟩ : Segment).start ∧
      ∃ ext, splitWords c.text =
        splitWords (⟨0, 1, tHi⟩ : Segment).text ++ ext :=
  ⟨(c4_refiner [⟨0, 1, tHi⟩, ⟨1, 2, tYo⟩] 3).1,
   (c4_refiner [⟨0, 1, tHi⟩, ⟨1, 2, tYo⟩] 3).2 ⟨0, 1, tHi⟩ [⟨1, 2, tYo⟩] rfl⟩

/-- A Refiner pass over segments that all have at least `m` words changes
nothing. -/
theorem rgo_all_long (m : Nat) : ∀ (l : List Segment) (cur : Segment),
    (∀ s ∈ l, m ≤ (splitWords s.text).length) → rgo m cur l = cur :: l := by
  intro l
  induction l with
  | nil => intro cur _; rfl
  | cons x xs ih =>
    intro cur h
    have hx : m ≤ (splitWords x.text).length := h x (List.mem_cons_self x xs)
    have h2 : ¬ (splitWords x.text).length < m := by omega
    simp [rgo, h2, ih x (fun s hs => h s (List.mem_cons_of_mem x hs))]

/-- Claim C5: the Segment Refiner is idempotent: a second pass with the same
threshold returns the first pass's output unchanged. -/
theorem c5_refiner_idempotent (segs : List Segment) (m : Nat) :
    refine_segments (refine_segments segs m) m = refine_segments segs m := by
  cases segs with
  | nil => rfl
  | cons s rest =>
    rw [refine_segments_cons]
    obtain ⟨c, r2, h1, _, _, h4⟩ := rgo_spec m rest s
    rw [h1, refine_segments_cons, rgo_all_long m r2 c h4]

/-- The concatenated word lists of a segment list, in order. -/
def wordsOfSegs : List Segment → List Text
  | [] => []
  | s :: rest => splitWords s.text ++ wordsOfSegs rest

/-- `rgo` preserves the concatenated word sequence. -/
theorem rgo_words (m : Nat) : ∀ (l : List Segment) (cur : Segment),
    wordsOfSegs (rgo m cur l) = splitWords cur.text ++ wordsOfSegs l := by
  intro l
  induction l with
  | nil => intro cur; simp [rgo, wordsOfSegs]
  | cons x xs ih =>
    intro cur
    by_cases h : (splitWords x.text).length < m
    · rw [show rgo m cur (x :: xs) = rgo m (fuseSeg cur x) xs from by
        simp [rgo, h]]
      rw [ih, splitWords_fuseSeg, wordsOfSegs]
      simp
    · rw [show rgo m cur (x :: xs) = cur :: rgo m x xs from by simp [rgo, h]]
      rw [wordsOfSegs, ih, wordsOfSegs]

/-- Claim C9: the Refiner preserves text content: the concatenation of the
word lists of the output segments equals that of the input segments; fusion
never drops, duplicates, or reorders a word. -/
theorem c9_refiner_words (segs : List Segment) (m : Nat) :
    wordsOfSegs (refine_segments segs m) = wordsOfSegs segs := by
  cases segs with
  | nil => rfl
  | cons s rest => rw [refine_segments_cons, rgo_words, wordsOfSegs]

/-- The overlap search started at fuel `n` returns a matching length that is
at least any matching `j` with `k ≤ j ≤ n` (and itself lies in `[k, n]` and
matches). -/
theorem findOverlapFrom_spec (ws : List Text) (t : Text) (k : Nat) :
    ∀ (n j : Nat), k ≤ j → j ≤ n →
      subTextOf (joinWords (ws.take j)) t = true →
      k ≤ findOverlapFrom ws t k n ∧
      findOverlapFrom ws t k n ≤ n ∧
      subTextOf (joinWords (ws.take (findOverlapFrom ws t k n))) t = true ∧
      j ≤ findOverlapFrom ws t k n := by
  intro n
  induction n with
  | zero =>
    intro j hk hj hm
    have hj0 : j = 0 := Nat.le_zero.mp hj
    subst hj0
    exact ⟨hk, le_refl 0, hm, le_refl 0⟩
  | succ n ih =>
    intro j hk hj hm
    have hnk : ¬ (n + 1 < k) := by omega
    by_cases hmatch : subTextOf (joinWords (ws.take (n + 1))) t = true
    · rw [show findOverlapFrom ws t k (n + 1) = n + 1 from by
        simp [findOverlapFrom, hnk, hmatch]]
      exact ⟨by omega, le_refl _, hmatch, hj⟩
    · have hj2 : j ≤ n := by
        rcases Nat.lt_or_ge j (n + 1) with hlt | hge
        · omega
        · exfalso
          have : j = n + 1 := by omega
          rw [this] at hm
          exact hmatch hm
      rw [show findOverlapFrom ws t k (n + 1) = findOverlapFrom ws t k n from by
        simp [findOverlapFrom, hnk, hmatch]]
      obtain ⟨a, b, c, d⟩ := ih j hk hj2 hm
      exact ⟨a, Nat.le_succ_of_le b, c, d⟩

/-- Claim C3: when some prefix length `j` with `k ≤ j ≤ |words|` matches as
a substring of the accumulated text, the Merger's overlap search (which
iterates from the full word count down to `k` and stops at the first hit)
returns a matching length that is the largest matching one: it matches, lies
in `[k, |words|]`, and is at least any matching `j`. -/
theorem c3_overlap_longest (ws : List Text) (t : Text) (k j : Nat)
    (hk : k ≤ j) (hj : j ≤ ws.length)
    (hm : subTextOf (joinWords (ws.take j)) t = true) :
    k ≤ findOverlapFrom ws t k ws.length ∧
    findOverlapFrom ws t k ws.length ≤ ws.length ∧
    subTextOf (joinWords (ws.take (findOverlapFrom ws t k ws.length))) t
      = true ∧
    j ≤ findOverlapFrom ws t k ws.length :=
  findOverlapFrom_spec ws t k ws.length j hk hj hm

/-- Witness for `c3_overlap_longest`: words of `"a b c"` against the text
`"x a b c y"` with `k = 2` and matching length `j = 2`. -/
theorem c3_overlap_longest_witness :
    2 ≤ 2 ∧ 2 ≤ (splitWords tAbc).length ∧
    subTextOf (joinWords ((splitWords tAbc).take 2)) "x a b c y".data
      = true ∧
    (2 ≤ findOverlapFrom (splitWords tAbc) "x a b c y".data 2
        (splitWords tAbc).length ∧
      findOverlapFrom (splitWords tAbc) "x a b c y".data 2
          (splitWords tAbc).length ≤ (splitWords tAbc).length ∧
      subTextOf (joinWords ((splitWords tAbc).take
          (findOverlapFrom (splitWords tAbc) "x a b c y".data 2
            (splitWords tAbc).length))) "x a b c y".data = true ∧
      2 ≤ findOverlapFrom (splitWords tAbc) "x a b c y".data 2
          (splitWords tAbc).length) :=
  ⟨by decide, by decide, by decide,
   c3_overlap_longest (splitWords tAbc) "x a b c y".data 2 2
     (by decide) (by decide) (by decide)⟩

/-- When the space-joined FULL word list occurs in the text, the search
succeeds immediately at the full length. -/
theorem findOverlapFrom_full (ws : List Text) (t : Text) (k : Nat)
    (hk : k ≤ ws.length) (hm : subTextOf (joinWords ws) t = true) :
    findOverlapFrom ws t k ws.length = ws.length := by
  rcases hn : ws.length with _ | n
  · rfl
  · have hnk : ¬ (n + 1 < k) := by omega
    have htake : ws.take (n + 1) = ws := by
      rw [← hn]
      exact List.take_length ws
    simp [findOverlapFrom, hnk, htake, hm]

/-- Claim C10: a caption whose entire word sequence occurs (space-joined) as
a substring of the accumulated segment text leaves the running segment's
text exactly unchanged (no trailing separator is appended) and the emitted
list untouched, while updating the segment's end time to the caption's end
time. -/
theorem c10_full_overlap (k : Nat) (st : Segment × List Segment)
    (cap : Caption)
    (h1 : (strip cap.text).isEmpty = false)
    (h2 : k ≤ (splitWords (strip cap.text)).length)
    (h3 : subTextOf (joinWords (splitWords (strip cap.text))) st.1.text
      = true) :
    mergeStep k st cap = (⟨st.1.start, cap.endT, st.1.text⟩, st.2) := by
  have hov := findOverlapFrom_full (splitWords (strip cap.text)) st.1.text k
    h2 h3
  have hext : extendedText st.1.text (splitWords (strip cap.text))
      (splitWords (strip cap.text)).length = st.1.text := by
    simp [extendedText, List.drop_length, joinWords, List.intercalate]
  simp [mergeStep, h1, hov, h2, hext]

/-- Witness for `c10_full_overlap`: the caption repeats `"a b c"` exactly. -/
theorem c10_full_overlap_witness :
    (strip tAbc).isEmpty = false ∧
    3 ≤ (splitWords (strip tAbc)).length ∧
    subTextOf (joinWords (splitWords (strip tAbc)))
      (⟨0, 5, tAbc⟩ : Segment).text = true ∧
    mergeStep 3 (⟨0, 5, tAbc⟩, ([] : List Segment)) ⟨4, 9, tAbc⟩ =
      (⟨0, 9, tAbc⟩, ([] : List Segment)) :=
  ⟨by decide, by decide, by decide,
   c10_full_overlap 3 (⟨0, 5, tAbc⟩, []) ⟨4, 9, tAbc⟩
     (by decide) (by decide) (by decide)⟩

/-- Instrumented variant of `mgo`: identical branch for branch, but each
emitted segment is paired with the list of captions merged into it (the
caption that seeded it plus every caption absorbed by the overlap branch;
skipped empty-text captions are not recorded). -/
def mgoI (k : Nat) (cur : Segment) (caps : List Caption) :
    List Caption → List (Segment × List Caption)
  | [] => [(cur, caps)]
  | c :: cs =>
    let currText := strip c.text
    if currText.isEmpty then mgoI k cur caps cs
    else
      let ws := splitWords currText
      let ov := findOverlapFrom ws cur.text k ws.length
      if k ≤ ov then
        mgoI k ⟨cur.start, c.endT, extendedText cur.text ws ov⟩
          (caps ++ [c]) cs
      else (cur, caps) :: mgoI k ⟨c.start, c.endT, currText⟩ [c] cs

/-- Instrumented `merge_captions_global`: the same segments, each paired
with the captions that were merged into it. -/
def merge_captions_globalI (captions : List Caption) (k : Nat) :
    List (Segment × List Caption) :=
  match captions with
  | [] => []
  | c :: rest => mgoI k ⟨c.start, c.endT, strip c.text⟩ [c] rest

/-- Dropping the recorded captions from `mgoI` gives back `mgo`. -/
theorem mgoI_fst (k : Nat) :
    ∀ (cs : List Caption) (cur : Segment) (caps : List Caption),
      (mgoI k cur caps cs).map Prod.fst = mgo k cur cs := by
  intro cs
  induction cs with
  | nil => intro cur caps; simp [mgoI, mgo]
  | cons c cs ih =>
    intro cur caps
    simp only [mgoI, mgo]
    by_cases h : (strip c.text).isEmpty
    · simp [h, ih]
    · by_cases h2 : k ≤ findOverlapFrom (splitWords (strip c.text)) cur.text k
        (splitWords (strip c.text)).length
      · simp [h, h2, ih]
      · simp [h, h2, ih]

/-- Dropping the recorded captions from the instrumented merger gives back
`merge_captions_global`. -/
theorem mergeI_fst (captions : List Caption) (k : Nat) :
    (merge_captions_globalI captions k).map Prod.fst =
      merge_captions_global captions k := by
  cases captions with
  | nil => rfl
  | cons c rest =>
    rw [merge_captions_global_cons]
    exact mgoI_fst k rest _ _

/-- Invariant of the instrumented Merger loop: if the running segment spans
`[start, endT]` with all recorded caption ends ≤ `endT`, the remaining
captions are well-formed (start ≤ end), their ends dominate `endT`, and
their ends are non-decreasing, then every emitted pair has segment end ≥
segment start and ≥ every recorded caption end. -/
theorem mgoI_endT (k : Nat) :
    ∀ (cs : List Caption) (cur : Segment) (caps : List Caption),
      cur.start ≤ cur.endT →
      (∀ x ∈ caps, x.endT ≤ cur.endT) →
      (∀ x ∈ cs, x.start ≤ x.endT) →
      (∀ x ∈ cs, cur.endT ≤ x.endT) →
      cs.Pairwise (fun a b => a.endT ≤ b.endT) →
      ∀ p ∈ mgoI k cur caps cs,
        p.1.start ≤ p.1.endT ∧ ∀ x ∈ p.2, x.endT ≤ p.1.endT := by
  intro cs
  induction cs with
  | nil =>
    intro cur caps hca hcaps _ _ _ p hp
    have : p = (cur, caps) := by simpa [mgoI] using hp
    rw [this]
    exact ⟨hca, hcaps⟩
  | cons c cs ih =>
    intro cur caps hca hcaps hr1 hr2 hpw
    have hpw2 := List.pairwise_cons.mp hpw
    have hr1c : c.start ≤ c.endT := hr1 c (List.mem_cons_self c cs)
    have hr2c : cur.endT ≤ c.endT := hr2 c (List.mem_cons_self c cs)
    have hr1t : ∀ x ∈ cs, x.start ≤ x.endT :=
      fun x hx => hr1 x (List.mem_cons_of_mem c hx)
    by_cases h : (strip c.text).isEmpty
    · intro p hp
      rw [show mgoI k cur caps (c :: cs) = mgoI k cur caps cs from by
        simp [mgoI, h]] at hp
      exact ih cur caps hca hcaps hr1t
        (fun x hx => hr2 x (List.mem_cons_of_mem c hx)) hpw2.2 p hp
    · by_cases h2 : k ≤ findOverlapFrom (splitWords (strip c.text)) cur.text k
        (splitWords (strip c.text)).length
      · intro p hp
        rw [show mgoI k cur caps (c :: cs) =
            mgoI k ⟨cur.start, c.endT,
              extendedText cur.text (splitWords (strip c.text))
                (findOverlapFrom (splitWords (strip c.text)) cur.text k
                  (splitWords (strip c.text)).length)⟩ (caps ++ [c]) cs
          from by simp [mgoI, h, h2]] at hp
        refine ih ⟨cur.start, c.endT,
            extendedText cur.text (splitWords (strip c.text))
              (findOverlapFrom (splitWords (strip c.text)) cur.text k
                (splitWords (strip c.text)).length)⟩ (caps ++ [c])
          (le_trans hca hr2c) ?_ hr1t
          (fun x hx => hpw2.1 x hx) hpw2.2 p hp
        intro x hx
        rcases List.mem_append.mp hx with hx2 | hx2
        · exact le_trans (hcaps x hx2) hr2c
        · exact le_of_eq (congrArg Caption.endT (List.mem_singleton.mp hx2))
      · intro p hp
        rw [show mgoI k cur caps (c :: cs) = (cur, caps) ::
            mgoI k ⟨c.start, c.endT, strip c.text⟩ [c] cs
          from by simp [mgoI, h, h2]] at hp
        rcases List.mem_cons.mp hp with hp2 | hp2
        · rw [hp2]
          exact ⟨hca, hcaps⟩
        · refine ih ⟨c.start, c.endT, strip c.text⟩ [c] hr1c ?_ hr1t
            (fun x hx => hpw2.1 x hx) hpw2.2 p hp2
          intro x hx
          exact le_of_eq (congrArg Caption.endT (List.mem_singleton.mp hx))

/-- Claim C6 (amended): if every caption's end time is at least its start
time and the caption end times are non-decreasing along the sequence, then
every segment emitted by the Merger has end ≥ start and end ≥ the end time
of every caption merged into it; the instrumented merger used to state this
projects exactly onto `merge_captions_global`. -/
theorem c6_segment_times (captions : List Caption) (k : Nat)
    (h1 : ∀ c ∈ captions, c.start ≤ c.endT)
    (h2 : captions.Pairwise (fun a b => a.endT ≤ b.endT)) :
    (merge_captions_globalI captions k).map Prod.fst =
      merge_captions_global captions k ∧
    ∀ p ∈ merge_captions_globalI captions k,
      p.1.start ≤ p.1.endT ∧ ∀ x ∈ p.2, x.endT ≤ p.1.endT := by
  refine ⟨mergeI_fst captions k, ?_⟩
  cases captions with
  | nil =>
    intro p hp
    simp [merge_captions_globalI] at hp
  | cons c rest =>
    have hpc := List.pairwise_cons.mp h2
    refine mgoI_endT k rest ⟨c.start, c.endT, strip c.text⟩ [c]
      (h1 c (List.mem_cons_self c rest)) ?_
      (fun x hx => h1 x (List.mem_cons_of_mem c hx))
      (fun x hx => hpc.1 x hx) hpc.2
    intro x hx
    exact le_of_eq (congrArg Caption.endT (List.mem_singleton.mp hx))

/-- Claim C6 (counterexample): with captions ordered by start time but a
later caption ending earlier, both captions merge into one segment whose
end time (2) is smaller than the end time (10) of the first caption that
contributed to it. -/
theorem c6_counterexample :
    (⟨0, 10, tAbc⟩ : Caption).start ≤ (⟨1, 2, tAbc⟩ : Caption).start ∧
    merge_captions_globalI [⟨0, 10, tAbc⟩, ⟨1, 2, tAbc⟩] 3 =
      [(⟨0, 2, tAbc⟩, [⟨0, 10, tAbc⟩, ⟨1, 2, tAbc⟩])] ∧
    ¬ (⟨0, 10, tAbc⟩ : Caption).endT ≤ (⟨0, 2, tAbc⟩ : Segment).endT := by
  decide

/-- Witness for `c6_segment_times` on a concrete well-formed input. -/
theorem c6_segment_times_witness :
    (∀ c ∈ [(⟨0, 10, tAbc⟩ : Caption), ⟨1, 12, tHi⟩], c.start ≤ c.endT) ∧
    ([(⟨0, 10, tAbc⟩ : Caption), ⟨1, 12, tHi⟩].Pairwise
      (fun a b => a.endT ≤ b.endT)) ∧
    ((merge_captions_globalI [⟨0, 10, tAbc⟩, ⟨1, 12, tHi⟩] 3).map Prod.fst =
      merge_captions_global [⟨0, 10, tAbc⟩, ⟨1, 12, tHi⟩] 3 ∧
    ∀ p ∈ merge_captions_globalI [⟨0, 10, tAbc⟩, ⟨1, 12, tHi⟩] 3,
      p.1.start ≤ p.1.endT ∧ ∀ x ∈ p.2, x.endT ≤ p.1.endT) :=
  ⟨by decide, by decide,
   c6_segment_times [⟨0, 10, tAbc⟩, ⟨1, 12, tHi⟩] 3 (by decide) (by decide)⟩
